import Mathlib

/-!
Verification of the clustering-and-projection core of `plot_cn_1d2d.py`
(HATCHet copy-number plotting utility).

The Python source is shallowly embedded:
* Python strings are modeled as `List Char` (`PyStr`); `str.split('|')` is
  `splitPipe`, `int(...)` is `parseInt`, `str.startswith` is `List.isPrefixOf`,
  string/tuple comparison is code-point / elementwise lexicographic order.
* `collections.Counter(labels).most_common()` is modeled as the stable sort
  (descending by count, insertion order preserved on ties) of the distinct
  keys in first-occurrence order; Python's `sorted` is stable, which the
  structural insertion sort `ssort` reproduces exactly.
* `pandas.groupby(cols)` over the copy-number columns yields each distinct
  key once, in ascending sorted key order (scalar key for a single grouping
  column, tuple key otherwise), which `groupKeys` reproduces.
* Numeric values (RD, BAF, mixing proportions) are modeled as `ℚ`.
* A Python exception is modeled as `Except`/`Option` failure; the `NaN`
  produced by `np.mean([])` is modeled as `none`.
-/

/-! ### Stable insertion sort (model of Python's stable `sorted`) -/

/-- Stable insert: `x` (which originates *earlier* in the input than every
element of `l`) is placed before the first element of `l` that is not
strictly below `x` in the order `le`. -/
def sinsert (le : α → α → Bool) (x : α) : List α → List α
  | [] => [x]
  | y :: t => if le y x && !le x y then y :: sinsert le x t else x :: y :: t

/-- Stable sort by the Boolean order `le`; ties keep input order. -/
def ssort (le : α → α → Bool) : List α → List α
  | [] => []
  | x :: t => sinsert le x (ssort le t)

theorem sinsert_perm (le : α → α → Bool) (x : α) (l : List α) :
    (sinsert le x l).Perm (x :: l) := by
  induction l with
  | nil => simp [sinsert]
  | cons y t ih =>
    by_cases h : (le y x && !le x y) = true
    · simpa [sinsert, h] using ((ih.cons y).trans (List.Perm.swap x y t))
    · simp [sinsert, h]

theorem ssort_perm (le : α → α → Bool) (l : List α) : (ssort le l).Perm l := by
  induction l with
  | nil => simp [ssort]
  | cons x t ih => exact (sinsert_perm le x (ssort le t)).trans (ih.cons x)

theorem mem_ssort (le : α → α → Bool) (l : List α) (a : α) :
    a ∈ ssort le l ↔ a ∈ l :=
  (ssort_perm le l).mem_iff

theorem sinsert_of_le (le : α → α → Bool) (x : α) (l : List α)
    (h : ∀ y ∈ l, le x y = true) : sinsert le x l = x :: l := by
  cases l with
  | nil => rfl
  | cons y t => simp [sinsert, h y (by simp)]

theorem ssort_of_pairwise (le : α → α → Bool) (l : List α)
    (h : l.Pairwise (fun a b => le a b = true)) : ssort le l = l := by
  induction l with
  | nil => rfl
  | cons x t ih =>
    rcases List.pairwise_cons.mp h with ⟨hx, ht⟩
    rw [ssort, ih ht]
    exact sinsert_of_le le x t hx

theorem pairwise_le_sinsert (le : α → α → Bool)
    (hto : ∀ a b, (le a b || le b a) = true)
    (htr : ∀ a b c, le a b = true → le b c = true → le a c = true)
    (x : α) (l : List α) (hs : l.Pairwise (fun a b => le a b = true)) :
    (sinsert le x l).Pairwise (fun a b => le a b = true) := by
  induction l with
  | nil => simp [sinsert]
  | cons y t ih =>
    rcases List.pairwise_cons.mp hs with ⟨hy, ht⟩
    by_cases h : (le y x && !le x y) = true
    · rw [sinsert, if_pos h]
      refine List.pairwise_cons.mpr ⟨?_, ih ht⟩
      intro z hz
      rcases List.mem_cons.mp ((sinsert_perm le x t).mem_iff.mp hz) with rfl | hz
      · exact (Bool.and_eq_true_iff.mp h).1
      · exact hy z hz
    · rw [sinsert, if_neg h]
      have hxy : le x y = true := by
        rcases Bool.or_eq_true_iff.mp (hto x y) with h1 | h1
        · exact h1
        · by_cases h2 : le x y = true
          · exact h2
          · exact absurd (by simp [h1, h2]) h
      refine List.pairwise_cons.mpr ⟨?_, hs⟩
      intro z hz
      rcases List.mem_cons.mp hz with rfl | hz
      · exact hxy
      · exact htr x y z hxy (hy z hz)

theorem ssort_pairwise_le (le : α → α → Bool)
    (hto : ∀ a b, (le a b || le b a) = true)
    (htr : ∀ a b c, le a b = true → le b c = true → le a c = true)
    (l : List α) : (ssort le l).Pairwise (fun a b => le a b = true) := by
  induction l with
  | nil => simp [ssort]
  | cons x t ih => exact pairwise_le_sinsert le hto htr x (ssort le t) ih

theorem pairwise_sinsert_stable (le : α → α → Bool) {R : α → α → Prop}
    (hto : ∀ a b, (le a b || le b a) = true)
    (htr : ∀ a b c, le a b = true → le b c = true → le a c = true)
    (hst : ∀ a b, le a b = true → le b a = false → R a b)
    (x : α) (l : List α)
    (hs : l.Pairwise (fun a b => le a b = true))
    (hR : l.Pairwise R)
    (hx : ∀ y ∈ l, le x y = true → le y x = true → R x y) :
    (sinsert le x l).Pairwise R := by
  induction l with
  | nil => simp [sinsert]
  | cons y t ih =>
    rcases List.pairwise_cons.mp hs with ⟨hy, ht⟩
    rcases List.pairwise_cons.mp hR with ⟨hRy, hRt⟩
    by_cases h : (le y x && !le x y) = true
    · rw [sinsert, if_pos h]
      refine List.pairwise_cons.mpr ⟨?_, ?_⟩
      · intro z hz
        rcases List.mem_cons.mp ((sinsert_perm le x t).mem_iff.mp hz) with rfl | hz
        · rcases Bool.and_eq_true_iff.mp h with ⟨h1, h2⟩
          exact hst y z h1 (by simpa using h2)
        · exact hRy z hz
      · exact ih ht hRt (fun z hz => hx z (List.mem_cons_of_mem y hz))
    · rw [sinsert, if_neg h]
      refine List.pairwise_cons.mpr ⟨?_, hR⟩
      intro z hz
      have hmem : z = y ∨ z ∈ t := List.mem_cons.mp hz
      have hyz : z = y ∨ le y z = true := by
        rcases hmem with rfl | hm
        · exact Or.inl rfl
        · exact Or.inr (hy z hm)
      -- show R x z by Boolean case analysis on le x z, le z x
      by_cases hxz : le x z = true
      · by_cases hzx : le z x = true
        · exact hx z hz hxz hzx
        · exact hst x z hxz (by simpa using hzx)
      · -- ¬ le x z; totality forces le z x, hence z strictly below x,
        -- contradicting that insertion stopped at y
        have hzx : le z x = true := by
          rcases Bool.or_eq_true_iff.mp (hto x z) with h1 | h1
          · exact absurd h1 hxz
          · exact h1
        have hyx : le y x = true := by
          rcases hyz with rfl | hyz
          · exact hzx
          · exact htr y z x hyz hzx
        have hxy : le x y = true := by
          by_cases h2 : le x y = true
          · exact h2
          · exact absurd (by simp [hyx, h2]) h
        have : le x z = true := by
          rcases hyz with rfl | hyz
          · exact hxy
          · exact htr x y z hxy hyz
        exact absurd this hxz

theorem pairwise_ssort_stable (le : α → α → Bool) {R : α → α → Prop}
    (hto : ∀ a b, (le a b || le b a) = true)
    (htr : ∀ a b c, le a b = true → le b c = true → le a c = true)
    (hst : ∀ a b, le a b = true → le b a = false → R a b)
    (l : List α)
    (hl : l.Pairwise (fun a b => le a b = true → le b a = true → R a b)) :
    (ssort le l).Pairwise R := by
  induction l with
  | nil => simp [ssort]
  | cons x t ih =>
    rcases List.pairwise_cons.mp hl with ⟨hx, ht⟩
    exact pairwise_sinsert_stable le hto htr hst x (ssort le t)
      (ssort_pairwise_le le hto htr t) (ih ht)
      (fun y hy => hx y ((mem_ssort le t y).mp hy))

/-! ### First index, first-occurrence deduplication, counts -/

/-- Index of the first occurrence of `k` in `l` (length of `l` if absent). -/
def firstIdx [DecidableEq K] (l : List K) (k : K) : ℕ :=
  l.findIdx (fun x => decide (x = k))

theorem firstIdx_cons [DecidableEq K] (x : K) (xs : List K) (k : K) :
    firstIdx (x :: xs) k = if x = k then 0 else firstIdx xs k + 1 := by
  by_cases h : x = k <;> simp [firstIdx, List.findIdx_cons, h]

theorem firstIdx_getD [DecidableEq K] (l : List K) (k d : K) (h : k ∈ l) :
    l.getD (firstIdx l k) d = k := by
  induction l with
  | nil => cases h
  | cons x xs ih =>
    rw [firstIdx_cons]
    by_cases hx : x = k
    · rw [if_pos hx, List.getD_cons_zero]
      exact hx
    · have hm : k ∈ xs := by
        rcases List.mem_cons.mp h with rfl | hm
        · exact absurd rfl hx
        · exact hm
      rw [if_neg hx, List.getD_cons_succ]
      exact ih hm

theorem firstIdx_inj [DecidableEq K] (l : List K) (a b : K)
    (ha : a ∈ l) (hb : b ∈ l) (h : firstIdx l a = firstIdx l b) : a = b := by
  have h1 := firstIdx_getD l a a ha
  have h2 := firstIdx_getD l b a hb
  rw [← h] at h2
  exact h1 ▸ h2 ▸ rfl

theorem sublist_pair_of_firstIdx_lt [DecidableEq K] (l : List K) (a b : K)
    (ha : a ∈ l) (hb : b ∈ l) (h : firstIdx l a < firstIdx l b) :
    [a, b].Sublist l := by
  induction l with
  | nil => cases ha
  | cons x xs ih =>
    rw [firstIdx_cons, firstIdx_cons] at h
    by_cases hxa : x = a
    · subst hxa
      rw [if_pos rfl] at h
      have hbx : ¬ (x = b) := by
        intro hxb
        rw [if_pos hxb] at h
        exact Nat.not_lt_zero _ h
      rw [if_neg hbx] at h
      have hbxs : b ∈ xs := by
        rcases List.mem_cons.mp hb with rfl | hm
        · exact absurd rfl hbx
        · exact hm
      exact (List.singleton_sublist.mpr hbxs).cons₂ x
    · rw [if_neg hxa] at h
      have haxs : a ∈ xs := by
        rcases List.mem_cons.mp ha with rfl | hm
        · exact absurd rfl hxa
        · exact hm
      by_cases hxb : x = b
      · rw [if_pos hxb] at h
        exact absurd h (by omega)
      · rw [if_neg hxb] at h
        have hbxs : b ∈ xs := by
          rcases List.mem_cons.mp hb with rfl | hm
          · exact absurd rfl hxb
          · exact hm
        exact (ih haxs hbxs (by omega)).cons x

/-- Distinct elements of `l` in first-occurrence order, skipping those in
`seen` (helper for `firstOcc`). -/
def firstOccAux [DecidableEq K] (seen : List K) : List K → List K
  | [] => []
  | x :: xs => if x ∈ seen then firstOccAux seen xs
               else x :: firstOccAux (x :: seen) xs

/-- Distinct elements of a list in first-occurrence order: the key order of
`collections.Counter` (Python dicts preserve insertion order) and of
`pandas.unique`. -/
def firstOcc [DecidableEq K] (l : List K) : List K := firstOccAux [] l

theorem mem_firstOccAux [DecidableEq K] (l : List K) :
    ∀ (seen : List K) (x : K), x ∈ firstOccAux seen l ↔ (x ∈ l ∧ x ∉ seen) := by
  induction l with
  | nil => simp [firstOccAux]
  | cons y ys ih =>
    intro seen x
    by_cases hy : y ∈ seen
    · rw [firstOccAux, if_pos hy, ih]
      constructor
      · rintro ⟨h1, h2⟩
        exact ⟨List.mem_cons_of_mem y h1, h2⟩
      · rintro ⟨h1, h2⟩
        rcases List.mem_cons.mp h1 with rfl | h1
        · exact absurd hy h2
        · exact ⟨h1, h2⟩
    · rw [firstOccAux, if_neg hy]
      constructor
      · intro hmem
        rcases List.mem_cons.mp hmem with rfl | hmem
        · exact ⟨List.mem_cons_self x ys, hy⟩
        · rcases (ih (y :: seen) x).mp hmem with ⟨h1, h2⟩
          refine ⟨List.mem_cons_of_mem y h1, fun hc => h2 (List.mem_cons_of_mem y hc)⟩
      · rintro ⟨h1, h2⟩
        rcases List.mem_cons.mp h1 with rfl | h1
        · exact List.mem_cons_self x _
        · by_cases hxy : x = y
          · exact hxy ▸ List.mem_cons_self _ _
          · exact List.mem_cons_of_mem _ ((ih (y :: seen) x).mpr
              ⟨h1, fun hc => by
                rcases List.mem_cons.mp hc with h | h
                · exact hxy h
                · exact h2 h⟩)

theorem mem_firstOcc [DecidableEq K] (l : List K) (x : K) :
    x ∈ firstOcc l ↔ x ∈ l := by
  rw [firstOcc, mem_firstOccAux]
  simp

theorem pairwise_firstIdx_firstOccAux [DecidableEq K] (l : List K) :
    ∀ (seen : List K),
      (firstOccAux seen l).Pairwise (fun a b => firstIdx l a < firstIdx l b) := by
  induction l with
  | nil => intro seen; simp [firstOccAux]
  | cons y ys ih =>
    intro seen
    by_cases hy : y ∈ seen
    · rw [firstOccAux, if_pos hy]
      refine List.pairwise_iff_forall_sublist.mpr ?_
      intro a b hab
      have ha := (mem_firstOccAux ys seen a).mp
        (hab.subset (by simp))
      have hb := (mem_firstOccAux ys seen b).mp
        (hab.subset (by simp))
      have h := List.pairwise_iff_forall_sublist.mp (ih seen) hab
      have hay : ¬ (y = a) := fun hc => ha.2 (hc ▸ hy)
      have hby : ¬ (y = b) := fun hc => hb.2 (hc ▸ hy)
      rw [firstIdx_cons, firstIdx_cons, if_neg hay, if_neg hby]
      omega
    · rw [firstOccAux, if_neg hy]
      refine List.pairwise_cons.mpr ⟨?_, ?_⟩
      · intro b hb
        have hmem := (mem_firstOccAux ys (y :: seen) b).mp hb
        have hby : ¬ (y = b) := fun hc => hmem.2 (hc ▸ List.mem_cons_self y seen)
        rw [firstIdx_cons, firstIdx_cons, if_pos rfl, if_neg hby]
        omega
      · refine List.pairwise_iff_forall_sublist.mpr ?_
        intro a b hab
        have ha := (mem_firstOccAux ys (y :: seen) a).mp (hab.subset (by simp))
        have hb := (mem_firstOccAux ys (y :: seen) b).mp (hab.subset (by simp))
        have h := List.pairwise_iff_forall_sublist.mp (ih (y :: seen)) hab
        have hay : ¬ (y = a) := fun hc => ha.2 (hc ▸ List.mem_cons_self y seen)
        have hby : ¬ (y = b) := fun hc => hb.2 (hc ▸ List.mem_cons_self y seen)
        rw [firstIdx_cons, firstIdx_cons, if_neg hay, if_neg hby]
        omega

theorem pairwise_firstIdx_firstOcc [DecidableEq K] (l : List K) :
    (firstOcc l).Pairwise (fun a b => firstIdx l a < firstIdx l b) :=
  pairwise_firstIdx_firstOccAux l []

theorem nodup_firstOcc [DecidableEq K] (l : List K) : (firstOcc l).Nodup := by
  have h := (pairwise_firstIdx_firstOcc l).imp
    (fun {a b} (hab : firstIdx l a < firstIdx l b) =>
      (fun hc : a = b => by subst hc; omega : a ≠ b))
  exact h

/-- Number of occurrences of `k` in `l` (the count held by
`collections.Counter(l)[k]`). -/
def cnt [DecidableEq K] (l : List K) (k : K) : ℕ :=
  l.countP (fun x => decide (x = k))

theorem cnt_eq_zero_of_not_mem [DecidableEq K] (l : List K) (k : K)
    (h : k ∉ l) : cnt l k = 0 := by
  rw [cnt, List.countP_eq_zero]
  intro a ha
  simp only [decide_eq_true_eq]
  intro hc
  exact h (hc ▸ ha)

theorem cnt_eq_one_of_nodup [DecidableEq K] (l : List K) (k : K)
    (hn : l.Nodup) (hk : k ∈ l) : cnt l k = 1 := by
  induction l with
  | nil => cases hk
  | cons x xs ih =>
    rcases List.nodup_cons.mp hn with ⟨hx, hxs⟩
    rw [cnt, List.countP_cons]
    by_cases hxk : x = k
    · subst hxk
      have h0 : cnt xs x = 0 := cnt_eq_zero_of_not_mem xs x hx
      rw [cnt] at h0
      simp [h0]
    · have hm : k ∈ xs := by
        rcases List.mem_cons.mp hk with rfl | hm
        · exact absurd rfl hxk
        · exact hm
      have h1 := ih hxs hm
      rw [cnt] at h1
      simp [h1, hxk]

/-- Function `rankPairs l j` assigns ranks `j, j+1, ...` to the elements of `l` in
order: the dictionary built by the `for ... j += 1` loop in `reindex`. -/
def rankPairs : List K → ℕ → List (K × ℕ)
  | [], _ => []
  | x :: t, j => (x, j) :: rankPairs t (j + 1)

/-- First-match association-list lookup (Python dict access `m[k]` for the
dictionaries built here, whose keys are distinct). -/
def alookup [DecidableEq K] (k : K) : List (K × β) → Option β
  | [] => none
  | p :: rest => if p.1 = k then some p.2 else alookup k rest

theorem alookup_rankPairs [DecidableEq K] (l : List K) (k : K) (j : ℕ)
    (h : k ∈ l) : alookup k (rankPairs l j) = some (firstIdx l k + j) := by
  induction l generalizing j with
  | nil => cases h
  | cons x xs ih =>
    rw [rankPairs, alookup, firstIdx_cons]
    by_cases hx : x = k
    · rw [if_pos hx, if_pos hx]
      simp
    · have hm : k ∈ xs := by
        rcases List.mem_cons.mp h with rfl | hm
        · exact absurd rfl hx
        · exact hm
      rw [if_neg hx, if_neg hx, ih (j + 1) hm]
      congr 1
      omega

theorem alookup_isSome_of_mem [DecidableEq K] (l : List K) (k : K) (j : ℕ)
    (h : k ∈ l) : (alookup k (rankPairs l j)).isSome = true := by
  rw [alookup_rankPairs l k j h]
  rfl

theorem rankPairs_map_snd (l : List K) (j : ℕ) :
    (rankPairs l j).map Prod.snd = List.range' j l.length := by
  induction l generalizing j with
  | nil => rfl
  | cons x xs ih => simp [rankPairs, List.range'_succ, ih (j + 1)]

/-! ### `reindex` (plot_cn_1d2d.py lines 348-360)

```
def reindex(labels):
    old2new = {}
    j = 1
    for i, _ in Counter(labels).most_common():
        old2new[i] = j
        j += 1
    old2newf = lambda x: old2new[x]
    return [old2newf(a) for a in labels], old2new
```

`Counter(labels)` holds the distinct labels in first-occurrence order with
their counts; `most_common()` sorts them by descending count with Python's
stable `sorted`, so ties keep first-occurrence order. -/

/-- Descending-count comparison used by `Counter.most_common`. -/
def leCnt [DecidableEq K] (labels : List K) (a b : K) : Bool :=
  decide (cnt labels b ≤ cnt labels a)

/-- The key order of `Counter(labels).most_common()`. -/
def mostCommon [DecidableEq K] (labels : List K) : List K :=
  ssort (leCnt labels) (firstOcc labels)

/-- Model of `reindex`: the re-ranked sequence and the label-to-rank dictionary. -/
def reindex [DecidableEq K] (labels : List K) : List ℕ × List (K × ℕ) :=
  let old2new := rankPairs (mostCommon labels) 1
  (labels.map (fun a => (alookup a old2new).getD 0), old2new)

/-! ### Python strings, `split('|')`, `int(...)` -/

/-- A Python string, modeled as its character sequence. -/
abbrev PyStr := List Char

/-- Python `s.split('|')`: always returns at least one (possibly empty)
piece. -/
def splitPipe : PyStr → List PyStr
  | [] => [[]]
  | c :: rest =>
    let r := splitPipe rest
    if c = '|' then [] :: r
    else match r with
      | [] => [[c]]
      | h :: t => (c :: h) :: t

/-- Digit-string to number; `none` on an empty string or a non-digit. -/
def parseDigits (l : PyStr) : Option ℕ :=
  if l.isEmpty then none
  else l.foldl (fun acc c =>
    match acc with
    | none => none
    | some n => if c.isDigit then some (n * 10 + (c.toNat - '0'.toNat)) else none)
    (some 0)

/-- Python `int(s)`: optional sign followed by digits; `none` models the
`ValueError` raised on anything else. -/
def parseInt : PyStr → Option ℤ
  | [] => none
  | '-' :: t => (parseDigits t).map (fun n => -(n : ℤ))
  | '+' :: t => (parseDigits t).map (fun n => (n : ℤ))
  | l => (parseDigits l).map (fun n => (n : ℤ))

/-- Python `str2state = lambda cn: tuple([int(a) for a in cn.split('|')])`
(plot_cn_1d2d.py line 346; `str2cn` on line 344 is identical).
`none` models the `ValueError` raised when a piece is not an integer;
note that the number of pieces is *not* checked. -/
def str2state (s : PyStr) : Option (List ℤ) :=
  (splitPipe s).mapM parseInt

/-- Model of `cn2total` (plot_cn_1d2d.py lines 362-365): asserts exactly two `|`-
separated pieces, then returns their integer sum; `none` models both the
`AssertionError` and the `ValueError`. -/
def cn2total (s : PyStr) : Option ℤ :=
  match splitPipe s with
  | [a, b] =>
    match parseInt a, parseInt b with
    | some x, some y => some (x + y)
    | _, _ => none
  | _ => none

/-- Total-copy-number with default `0`: used inside `computeGamma`, whose
theorems all assume well-formed state tokens (the source raises on a
malformed token instead). -/
def cn2totalD (s : PyStr) : ℤ := (cn2total s).getD 0

/-- Model of `cn2evs(cns, props)` (plot_cn_1d2d.py lines 388-393): expected
fractional copy number and expected BAF of a state vector under mixing
proportions. -/
def cn2evs (cns : List (ℤ × ℤ)) (props : List ℚ) : ℚ × ℚ :=
  let prs := cns.zip props
  let fsum := (prs.map (fun p => ((p.1.1 + p.1.2 : ℤ) : ℚ) * p.2)).sum
  let bsum := (prs.map (fun p => ((p.1.2 : ℤ) : ℚ) * p.2)).sum
  (fsum, bsum / fsum)

/-! ### Lexicographic comparison (Python string and tuple `<=`) -/

/-- Lexicographic `≤` from a strict element order `lt` (the comparison
Python uses for strings over their characters and for tuples over their
elements). -/
def lexLE (lt : α → α → Bool) : List α → List α → Bool
  | [], _ => true
  | _ :: _, [] => false
  | a :: as, b :: bs => if lt a b then true else if lt b a then false else lexLE lt as bs

theorem lexLE_total (lt : α → α → Bool) :
    ∀ a b : List α, (lexLE lt a b || lexLE lt b a) = true := by
  intro a
  induction a with
  | nil => intro b; simp [lexLE]
  | cons x xs ih =>
    intro b
    cases b with
    | nil => simp [lexLE]
    | cons y ys =>
      by_cases h1 : lt x y = true
      · have e1 : lexLE lt (x :: xs) (y :: ys) = true := by
          simp only [lexLE, if_pos h1]
        simp [e1]
      · by_cases h2 : lt y x = true
        · have e2 : lexLE lt (y :: ys) (x :: xs) = true := by
            simp only [lexLE, if_pos h2]
          simp [e2]
        · have e1 : lexLE lt (x :: xs) (y :: ys) = lexLE lt xs ys := by
            simp only [lexLE, if_neg h1, if_neg h2]
          have e2 : lexLE lt (y :: ys) (x :: xs) = lexLE lt ys xs := by
            simp only [lexLE, if_neg h2, if_neg h1]
          rw [e1, e2]
          exact ih ys

theorem lexLE_trans (lt : α → α → Bool)
    (lttr : ∀ a b c, lt a b = true → lt b c = true → lt a c = true)
    (lteq : ∀ a b, lt a b = false → lt b a = false → a = b) :
    ∀ a b c : List α, lexLE lt a b = true → lexLE lt b c = true →
      lexLE lt a c = true := by
  intro a
  induction a with
  | nil => intro b c _ _; simp [lexLE]
  | cons x xs ih =>
    intro b c hab hbc
    cases b with
    | nil => simp [lexLE] at hab
    | cons y ys =>
      cases c with
      | nil => simp [lexLE] at hbc
      | cons z zs =>
        by_cases hxy : lt x y = true
        · -- x < y
          by_cases hyz : lt y z = true
          · simp [lexLE, lttr x y z hxy hyz]
          · by_cases hzy : lt z y = true
            · simp [lexLE, hyz, hzy] at hbc
            · have : y = z := lteq y z (by simpa using hyz) (by simpa using hzy)
              subst this
              simp [lexLE, hxy]
        · by_cases hyx : lt y x = true
          · simp [lexLE, hxy, hyx] at hab
          · have hxyeq : x = y := lteq x y (by simpa using hxy) (by simpa using hyx)
            subst hxyeq
            rw [lexLE, if_neg hxy, if_neg hyx] at hab
            by_cases hxz : lt x z = true
            · simp [lexLE, hxz]
            · by_cases hzx : lt z x = true
              · simp [lexLE, hxz, hzx] at hbc
              · have hxs : lexLE lt ys zs = true := by
                  rw [lexLE, if_neg hxz, if_neg hzx] at hbc
                  exact hbc
                rw [lexLE, if_neg hxz, if_neg hzx]
                exact ih ys zs hab hxs

theorem lexLE_antisymm (lt : α → α → Bool)
    (ltas : ∀ a b, lt a b = true → lt b a = false)
    (lteq : ∀ a b, lt a b = false → lt b a = false → a = b) :
    ∀ a b : List α, lexLE lt a b = true → lexLE lt b a = true → a = b := by
  intro a
  induction a with
  | nil =>
    intro b hab hba
    cases b with
    | nil => rfl
    | cons y ys => simp [lexLE] at hba
  | cons x xs ih =>
    intro b hab hba
    cases b with
    | nil => simp [lexLE] at hab
    | cons y ys =>
      by_cases hxy : lt x y = true
      · have hyx : ¬ (lt y x = true) := by simp [ltas x y hxy]
        simp only [lexLE, if_neg hyx, if_pos hxy] at hba
        exact absurd hba (by simp)
      · by_cases hyx : lt y x = true
        · simp only [lexLE, if_neg hxy, if_pos hyx] at hab
          exact absurd hab (by simp)
        · have hxyeq : x = y := lteq x y (by simpa using hxy) (by simpa using hyx)
          subst hxyeq
          simp only [lexLE, if_neg hxy, if_neg hyx] at hab hba
          rw [ih ys hab hba]

/-- Strict code-point comparison of characters (Python `<` on 1-char
strings). -/
def charLTb (c d : Char) : Bool := decide (c < d)

/-- Python string `<=` (lexicographic by code point). -/
def strLE : PyStr → PyStr → Bool := lexLE charLTb

/-- Python string `<` (strict). -/
def strLTb (s t : PyStr) : Bool := strLE s t && !strLE t s

/-- Python tuple-of-strings `<=` (elementwise lexicographic). -/
def tupleLE : List PyStr → List PyStr → Bool := lexLE strLTb

theorem charLTb_asymm (c d : Char) (h : charLTb c d = true) :
    charLTb d c = false := by
  simp only [charLTb, decide_eq_true_eq] at h
  simpa [charLTb] using le_of_lt h

theorem charLTb_trans (c d e : Char) (h1 : charLTb c d = true)
    (h2 : charLTb d e = true) : charLTb c e = true := by
  simp only [charLTb, decide_eq_true_eq] at h1 h2 ⊢
  exact lt_trans h1 h2

theorem charLTb_eq (c d : Char) (h1 : charLTb c d = false)
    (h2 : charLTb d c = false) : c = d := by
  simp only [charLTb, decide_eq_false_iff_not] at h1 h2
  exact le_antisymm (le_of_not_lt h2) (le_of_not_lt h1)

theorem strLE_total (s t : PyStr) : (strLE s t || strLE t s) = true :=
  lexLE_total charLTb s t

theorem strLE_trans (s t u : PyStr) (h1 : strLE s t = true)
    (h2 : strLE t u = true) : strLE s u = true :=
  lexLE_trans charLTb charLTb_trans charLTb_eq s t u h1 h2

theorem strLE_antisymm (s t : PyStr) (h1 : strLE s t = true)
    (h2 : strLE t s = true) : s = t :=
  lexLE_antisymm charLTb charLTb_asymm charLTb_eq s t h1 h2

theorem strLTb_asymm (s t : PyStr) (h : strLTb s t = true) :
    strLTb t s = false := by
  rcases Bool.and_eq_true_iff.mp h with ⟨h1, h2⟩
  have h3 : strLE t s = false := by simpa using h2
  simp [strLTb, h3]

theorem strLTb_trans (s t u : PyStr) (h1 : strLTb s t = true)
    (h2 : strLTb t u = true) : strLTb s u = true := by
  rcases Bool.and_eq_true_iff.mp h1 with ⟨h1a, h1b⟩
  rcases Bool.and_eq_true_iff.mp h2 with ⟨h2a, h2b⟩
  have hsu : strLE s u = true := strLE_trans s t u h1a h2a
  have hus : ¬ (strLE u s = true) := by
    intro hc
    exact absurd (strLE_trans t u s h2a hc) (by simpa using h1b)
  simp [strLTb, hsu, hus]

theorem strLTb_eq (s t : PyStr) (h1 : strLTb s t = false)
    (h2 : strLTb t s = false) : s = t := by
  rcases Bool.or_eq_true_iff.mp (strLE_total s t) with h | h
  · have h4 : strLE t s = true := by
      by_cases hc : strLE t s = true
      · exact hc
      · have hcf : strLE t s = false := by simpa using hc
        have hlt : strLTb s t = true := by simp [strLTb, h, hcf]
        rw [hlt] at h1
        cases h1
    exact strLE_antisymm s t h h4
  · have h4 : strLE s t = true := by
      by_cases hc : strLE s t = true
      · exact hc
      · have hcf : strLE s t = false := by simpa using hc
        have hlt : strLTb t s = true := by simp [strLTb, h, hcf]
        rw [hlt] at h2
        cases h2
    exact strLE_antisymm s t h4 h

theorem tupleLE_total (s t : List PyStr) : (tupleLE s t || tupleLE t s) = true :=
  lexLE_total strLTb s t

theorem tupleLE_trans (s t u : List PyStr) (h1 : tupleLE s t = true)
    (h2 : tupleLE t u = true) : tupleLE s u = true :=
  lexLE_trans strLTb strLTb_trans strLTb_eq s t u h1 h2

theorem tupleLE_antisymm (s t : List PyStr) (h1 : tupleLE s t = true)
    (h2 : tupleLE t s = true) : s = t :=
  lexLE_antisymm strLTb strLTb_asymm strLTb_eq s t h1 h2

/-! ### Data model: bins, tables, grouping keys -/

/-- One row of the BBC table (one bin in one sample), with the columns this
core reads.  `cns` holds the state tokens of columns
`cn_normal, cn_clone1, ..., cn_clonen` (index 0 is the normal clone) and
`us` the proportions of columns `u_normal, u_clone1, ..., u_clonen`. -/
structure Row where
  CHR : PyStr
  START : ℤ
  END : ℤ
  SAMPLE : PyStr
  RD : ℚ
  BAF : ℚ
  cns : List PyStr
  us : List ℚ
deriving DecidableEq

/-- A BBC table together with its number of tumor clones (in the source,
`n_clones` is recovered from the column names / column count). -/
structure BBC where
  nClones : ℕ
  rows : List Row
deriving DecidableEq

/-- A `pandas.groupby` key over the columns `cn_clone1..cn_clonen`: the
bare state string when there is exactly one tumor clone, the tuple of
state strings otherwise. -/
inductive StateKey
  | single (s : PyStr)
  | multi (l : List PyStr)
deriving DecidableEq

/-- Python ordering on groupby keys (keys of one table always share one
constructor; across constructors the order is arbitrary but fixed). -/
def keyLE : StateKey → StateKey → Bool
  | .single a, .single b => strLE a b
  | .single _, .multi _ => true
  | .multi _, .single _ => false
  | .multi a, .multi b => tupleLE a b

theorem keyLE_total (a b : StateKey) : (keyLE a b || keyLE b a) = true := by
  cases a <;> cases b <;> simp [keyLE, strLE_total, tupleLE_total]

theorem keyLE_trans (a b c : StateKey) (h1 : keyLE a b = true)
    (h2 : keyLE b c = true) : keyLE a c = true := by
  cases a with
  | single x =>
    cases b with
    | single y =>
      cases c with
      | single z => exact strLE_trans x y z h1 h2
      | multi z => rfl
    | multi y =>
      cases c with
      | single z => exact absurd h2 (by simp [keyLE])
      | multi z => rfl
  | multi x =>
    cases b with
    | single y => exact absurd h1 (by simp [keyLE])
    | multi y =>
      cases c with
      | single z => exact absurd h2 (by simp [keyLE])
      | multi z => exact tupleLE_trans x y z h1 h2

theorem keyLE_antisymm (a b : StateKey) (h1 : keyLE a b = true)
    (h2 : keyLE b a = true) : a = b := by
  cases a with
  | single x =>
    cases b with
    | single y => exact congrArg StateKey.single (strLE_antisymm x y h1 h2)
    | multi y => exact absurd h2 (by simp [keyLE])
  | multi x =>
    cases b with
    | single y => exact absurd h1 (by simp [keyLE])
    | multi y => exact congrArg StateKey.multi (tupleLE_antisymm x y h1 h2)

/-- The groupby key of one row: `bbc.groupby([f'cn_clone{i + 1}' for i in
range(n_clones)])` yields the bare `cn_clone1` string when `n_clones == 1`
and the tuple of the `n_clones` state strings otherwise. -/
def binKey (n : ℕ) (r : Row) : StateKey :=
  if n = 1 then .single (r.cns.getD 1 [])
  else .multi ((r.cns.drop 1).take n)

/-- The per-bin grouping keys of a table, in row order. -/
def binKeys (bbc : BBC) : List StateKey :=
  bbc.rows.map (binKey bbc.nClones)

/-- The list of distinct groupby keys in ascending key order: exactly the
iteration order of `bbc.groupby(...)` (pandas sorts group keys). -/
def groupKeys (bbc : BBC) : List StateKey :=
  ssort keyLE (firstOcc (binKeys bbc))

/-- The state-to-rank mapping built at plot_cn_1d2d.py line 84:
`_, mapping = reindex([k for k, _ in bbc.groupby([...])])`.
Note that `reindex` receives each distinct key exactly once. -/
def pipelineMapping (bbc : BBC) : List (StateKey × ℕ) :=
  (reindex (groupKeys bbc)).2

/-- Python `bbc[bbc.SAMPLE == sample]`: the per-sample slice taken inside the
plotting loops. -/
def sampleSubset (bbc : BBC) (s : PyStr) : BBC :=
  ⟨bbc.nClones, bbc.rows.filter (fun r => r.SAMPLE == s)⟩

/-! ### `compute_gamma` (plot_cn_1d2d.py lines 367-386) -/

/-- Default row used to model `bbc[...][0]` access (the source indexes row
0 unconditionally; tables are nonempty in every theorem below). -/
def defaultRow : Row := ⟨[], 0, 0, [], 0, 0, [], []⟩

/-- Model of `np.argmax`: index of the first occurrence of the maximum (0 for the
empty list, where the source would raise). -/
def argmaxIdx (l : List ℚ) : ℕ :=
  match l.max? with
  | none => 0
  | some m => firstIdx l m

/-- Per-row fractional copy number (line 370):
`sum(bbc.iloc[:, 11 + 2*i].map(cn2total) * bbc.iloc[:, 12 + 2*i] for i in
range(n_clones + 1))`, i.e. the proportion-weighted total copy number over
the normal clone and all tumor clones. -/
def fcnRow (n : ℕ) (r : Row) : ℚ :=
  ((List.range (n + 1)).map
    (fun i => ((cn2totalD (r.cns.getD i [])) : ℚ) * r.us.getD i 0)).sum

/-- Index of the dominant tumor clone (line 371):
`np.argmax([bbc['u_clone{}'.format(i + 1)][0] for i in range(n_clones)])`. -/
def largestClone (bbc : BBC) : ℕ :=
  argmaxIdx ((List.range bbc.nClones).map
    (fun i => (bbc.rows.headD defaultRow).us.getD (i + 1) 0))

/-- The dominant clone's state-token column (line 372):
`bbc['cn_clone{}'.format(largest_clone + 1)]`. -/
def dominantCol (bbc : BBC) : List PyStr :=
  bbc.rows.map (fun r => r.cns.getD (largestClone bbc + 1) [])

/-- Python `balanced_options = set(['1|1', '2|2', '3|3', '4|4'])` (line 373).
A Python `set` iterates in an unspecified (hash-dependent) order; the
model fixes the written order, and every theorem below that depends on a
`max` has a unique maximizer, so the tie order never matters. -/
def balancedOptions : List PyStr :=
  [['1','|','1'], ['2','|','2'], ['3','|','3'], ['4','|','4']]

/-- Python `max(opts, key=f)`: first element with the maximal key. -/
def maxByCount (opts : List PyStr) (f : PyStr → ℕ) : PyStr :=
  opts.foldl (fun best x => if f best < f x then x else best) (opts.headD [])

/-- Python `largest_balanced = max(balanced_options, key=lambda x: dominant_cns[x])`
(line 374). -/
def firstCandidate (bbc : BBC) : PyStr :=
  maxByCount balancedOptions (fun s => cnt (dominantCol bbc) s)

/-- The candidate selected after removing the first one (lines 379-380). -/
def secondCandidate (bbc : BBC) : PyStr :=
  maxByCount (balancedOptions.erase (firstCandidate bbc))
    (fun s => cnt (dominantCol bbc) s)

/-- Rows selected for calibration against the balanced token `s`
(lines 375-377): every *tumor* clone carries state `s` and `RD > 0`. -/
def balancedRows (bbc : BBC) (s : PyStr) : List Row :=
  bbc.rows.filter (fun r =>
    ((List.range bbc.nClones).all (fun j => decide (r.cns.getD (j + 1) [] = s)))
      && decide (0 < r.RD))

/-- Model of `np.mean`: `none` models the `NaN` returned on an empty selection. -/
def meanQ (l : List ℚ) : Option ℚ :=
  if l.isEmpty then none else some (l.sum / (l.length : ℚ))

/-- The mean of `fractional_cn / RD` over the selected rows (line 386). -/
def gammaMean (n : ℕ) (sel : List Row) : Option ℚ :=
  meanQ (sel.map (fun r => fcnRow n r / r.RD))

/-- Model of `compute_gamma(bbc)` (lines 367-386): returns `(n_clones, gamma)`.
If the best balanced candidate selects no rows it is removed and the best
remaining candidate is tried, *once*; the gamma component is `none`
exactly when `np.mean` runs on an empty selection (a `NaN`, not an
exception, in the source). -/
def computeGamma (bbc : BBC) : ℕ × Option ℚ :=
  let sel1 := balancedRows bbc (firstCandidate bbc)
  if sel1.isEmpty then
    (bbc.nClones, gammaMean bbc.nClones (balancedRows bbc (secondCandidate bbc)))
  else
    (bbc.nClones, gammaMean bbc.nClones sel1)

/-! ### Color mapping of ranks (plot_cn_1d2d.py lines 600-616) -/

/-- The rank-to-color transform applied to the state mapping in
`plot_clusters`: with at most 20 states, `{k: v % 20}` indexes the
20-color `tab20` palette; with more, `{k: v % 40 / n_states}` is a
position in `[0, 1)` of the combined 40-entry `tab20b`+`tab20c`
colormap. -/
def clusterColorMapping (mapping : List (StateKey × ℕ)) : List (StateKey × ℚ) :=
  let nStates := mapping.length
  if nStates ≤ 20 then
    mapping.map (fun p => (p.1, ((p.2 % 20 : ℕ) : ℚ)))
  else
    mapping.map (fun p => (p.1, ((p.2 % 40 : ℕ) : ℚ) / (nStates : ℚ)))

/-! ### Chromosome-name checks and axis layout
(`generate_1D2D_plots`, plot_cn_1d2d.py lines 57-84) -/

inductive PlotError
  | missingChrColumn
  | mixedChrNames
  | chrKeyError
deriving DecidableEq

instance exceptDecEq [DecidableEq ε] [DecidableEq α] : DecidableEq (Except ε α)
  | .error e, .error f =>
    if h : e = f then .isTrue (by rw [h]) else .isFalse (by simp [h])
  | .error _, .ok _ => .isFalse (by simp)
  | .ok _, .error _ => .isFalse (by simp)
  | .ok a, .ok b =>
    if h : a = b then .isTrue (by rw [h]) else .isFalse (by simp [h])

/-- The literal `'chr'`. -/
def chrHdr : PyStr := ['c','h','r']

/-- The `#CHR` checks of lines 61-75: error if the column is missing;
error if some (but not all) distinct chromosome names start with `'chr'`;
prepend `'chr'` to every name when none does. -/
def checkChr (hasChrCol : Bool) (chrs : List PyStr) : Except PlotError (List PyStr) :=
  if !hasChrCol then .error .missingChrColumn
  else
    let usingChr := (firstOcc chrs).map (fun a => chrHdr.isPrefixOf a)
    if usingChr.any id then
      if usingChr.all id then .ok chrs
      else .error .mixedChrNames
    else .ok (chrs.map (fun c => chrHdr ++ c))

/-- The name `'chr' + str(i)`. -/
def chrName (i : ℕ) : PyStr := chrHdr ++ Nat.toDigits 10 i

/-- Lookup `chrlengths[c]`: the maximum `END` among rows of chromosome `c`
(line 78); `none` models the `KeyError` when `c` has no rows. -/
def maxEndPerChr (prs : List (PyStr × ℤ)) (c : PyStr) : Option ℤ :=
  ((prs.filter (fun p => p.1 == c)).map Prod.snd).max?

/-- Model of `chr_ends` (lines 79-81): cumulative offsets over `chr1..chr22`;
`none` models the `KeyError` raised when one of them is absent. -/
def chrEnds (lens : PyStr → Option ℤ) : Option (List ℤ) :=
  ((List.range 22).mapM (fun i => lens (chrName (i + 1)))).map
    (fun ls => ls.scanl (· + ·) 0)

/-- The data-preparation part of `generate_1D2D_plots` (lines 61-84): the
`#CHR` checks and normalization, the `chr1..chr22` axis offsets, and the
state-to-rank mapping, in source order.  Plot rendering itself is outside
the model. -/
def generatePipeline (hasChrCol : Bool) (bbc : BBC) :
    Except PlotError (List ℤ × List (StateKey × ℕ)) :=
  match checkChr hasChrCol (bbc.rows.map (fun r => r.CHR)) with
  | .error e => .error e
  | .ok chrs =>
    match chrEnds (maxEndPerChr (chrs.zip (bbc.rows.map (fun r => r.END)))) with
    | none => .error .chrKeyError
    | some ends => .ok (ends, pipelineMapping bbc)

/-! ### Helper lemmas on `Option.mapM` -/

theorem mapM_cons_some {α β} {f : α → Option β} {x : α} {xs : List α}
    {r : List β} (h : (x :: xs).mapM f = some r) :
    ∃ v rs, f x = some v ∧ xs.mapM f = some rs ∧ r = v :: rs := by
  rw [List.mapM_cons] at h
  cases hx : f x with
  | none => rw [hx] at h; simp at h
  | some v =>
    rw [hx] at h
    cases hxs : xs.mapM f with
    | none => rw [hxs] at h; simp at h
    | some rs =>
      rw [hxs] at h
      simp at h
      exact ⟨v, rs, rfl, rfl, h.symm⟩

theorem mapM_some_nil {α β} {f : α → Option β} {l : List α}
    (h : l.mapM f = some []) : l = [] := by
  cases l with
  | nil => rfl
  | cons x xs =>
    rcases mapM_cons_some h with ⟨v, rs, _, _, hr⟩
    cases hr

theorem mapM_eq_none_of_mem {α β} (f : α → Option β) :
    ∀ (l : List α) (x : α), x ∈ l → f x = none → l.mapM f = none := by
  intro l
  induction l with
  | nil => intro x hx; cases hx
  | cons y ys ih =>
    intro x hx hfx
    rw [List.mapM_cons]
    rcases List.mem_cons.mp hx with rfl | hx
    · rw [hfx]
      rfl
    · cases hfy : f y with
      | none => rfl
      | some v => rw [ih x hx hfx]; rfl

/-! ### Shared concrete fixtures -/

def s11 : PyStr := ['1','|','1']
def s21 : PyStr := ['2','|','1']
def s22 : PyStr := ['2','|','2']
def s30 : PyStr := ['3','|','0']
def s33 : PyStr := ['3','|','3']

/-- A one-tumor-clone bin with the given clone state and read-depth ratio
(normal clone `1|1`, proportions `u_normal = 0`, `u_clone1 = 1`). -/
def mkRow (cn : PyStr) (rd : ℚ) : Row :=
  ⟨['1'], 0, 100, ['A'], rd, 0, [s11, cn], [0, 1]⟩

/-! ### C4: expected-value projector -/

/-- C4 counterexample: on states `[normal (1,1), tumor (2,0)]` with
proportions `[0.5, 0.5]` the projector returns expected BAF `1/4`, not the
`0` the claim states: the normal clone's B-allele count is 1, not 0. -/
theorem c4_counterexample :
    (cn2evs [(1,1), (2,0)] [1/2, 1/2]).2 = 1/4 ∧ ((1:ℚ)/4) ≠ 0 := by
  constructor
  · norm_num [cn2evs]
  · norm_num

/-- C4 (amended): the projector on `[normal (1,1), tumor (2,0)]` with
proportions `[0.5, 0.5]` returns expected FCN `2` and expected BAF `1/4`
(`= (1*0.5 + 0*0.5) / 2`, the normal clone contributing `B = 1`); the
general formulas FCN `= Σ (A_i + B_i) p_i` and
BAF `= Σ B_i p_i / Σ (A_i + B_i) p_i` over all clones including normal are
unchanged. -/
theorem c4_amended_expected_values :
    cn2evs [(1,1), (2,0)] [1/2, 1/2] = (2, 1/4) := by
  norm_num [cn2evs]

/-! ### C9: state-token parsing -/

/-- C9 counterexample: `str2state` (the parser, line 346) does *not* fail
on a token with three integer pieces; only `cn2total` asserts the arity. -/
theorem c9_counterexample :
    str2state ['1','|','2','|','3'] = some [1, 2, 3] ∧
      cn2total ['1','|','2','|','3'] = none := by
  constructor
  · decide
  · decide

/-- C9 (amended): parsing splits on `|` and fails only when some piece is
not integer-parseable — the arity is not checked by the parser itself, but
whenever parsing yields exactly two integers `A, B`, the total-copy-number
function accepts the token and returns `A + B`. -/
theorem c9_amended_parse_total (s : PyStr) (a b : ℤ)
    (h : str2state s = some [a, b]) : cn2total s = some (a + b) := by
  rw [str2state] at h
  rcases hsp : splitPipe s with _ | ⟨x, xs⟩
  · rw [hsp, List.mapM_nil] at h
    simp at h
  · rw [hsp] at h
    rcases mapM_cons_some h with ⟨v, rs, hx, hxs, hr⟩
    injection hr with hv hrs
    subst hv
    subst hrs
    cases xs with
    | nil =>
      rw [List.mapM_nil] at hxs
      simp at hxs
    | cons y ys =>
      rcases mapM_cons_some hxs with ⟨w, ws, hy, hys, hr2⟩
      injection hr2 with hw hws
      subst hw
      subst hws
      have hys2 : ys = [] := mapM_some_nil hys
      subst hys2
      simp only [cn2total, hsp, hx, hy]

theorem c9_witness :
    str2state ['1','|','2'] = some [1, 2] ∧
      cn2total ['1','|','2'] = some (1 + 2) :=
  ⟨by decide, c9_amended_parse_total ['1','|','2'] 1 2 (by decide)⟩

/-! ### C6: rank-to-color mapping branches -/

/-- C6: the color-mapping step sends a rank `v` to palette index `v % 20`
of the 20-color categorical palette when the mapping has at most 20
states, and to the continuous position `(v % 40) / n_states` of the
combined 40-entry colormap when it has more than 20 (so 21 distinct
combinations take the continuous branch). -/
theorem c6_color_mapping (mapping : List (StateKey × ℕ)) (k : StateKey)
    (v : ℕ) (hm : (k, v) ∈ mapping) :
    (mapping.length ≤ 20 →
      (k, ((v % 20 : ℕ) : ℚ)) ∈ clusterColorMapping mapping) ∧
    (20 < mapping.length →
      (k, ((v % 40 : ℕ) : ℚ) / (mapping.length : ℚ)) ∈
        clusterColorMapping mapping) := by
  constructor
  · intro h
    rw [clusterColorMapping]
    rw [if_pos h]
    exact List.mem_map.mpr ⟨(k, v), hm, rfl⟩
  · intro h
    rw [clusterColorMapping]
    rw [if_neg (by omega)]
    exact List.mem_map.mpr ⟨(k, v), hm, rfl⟩

/-- A 21-entry mapping exercising the `N > 20` branch. -/
def c6map : List (StateKey × ℕ) :=
  (List.range 21).map (fun i => (StateKey.single ['a'], i + 1))

theorem c6_witness :
    (StateKey.single ['a'], 1) ∈ c6map ∧ 20 < c6map.length ∧
      (StateKey.single ['a'], ((1 % 40 : ℕ) : ℚ) / (c6map.length : ℚ)) ∈
        clusterColorMapping c6map :=
  ⟨by decide, by decide,
    (c6_color_mapping c6map (StateKey.single ['a']) 1 (by decide)).2 (by decide)⟩

/-! ### C8: chromosome-column checks and normalization -/

/-- C8: the entry point errors out when the `#CHR` column is absent,
errors out when some chromosome names carry the `chr` prefix and others do
not, and when no name carries the prefix it prepends `chr` to every name
and the check succeeds. -/
theorem c8_chr_checks (chrs : List PyStr) :
    (checkChr false chrs = .error .missingChrColumn) ∧
    ((∃ a ∈ chrs, chrHdr.isPrefixOf a = true) →
      (∃ b ∈ chrs, chrHdr.isPrefixOf b = false) →
        checkChr true chrs = .error .mixedChrNames) ∧
    ((∀ a ∈ chrs, chrHdr.isPrefixOf a = false) →
      checkChr true chrs = .ok (chrs.map (fun c => chrHdr ++ c))) := by
  refine ⟨rfl, ?_, ?_⟩
  · rintro ⟨a, ha, hpa⟩ ⟨b, hb, hpb⟩
    have hany : ((firstOcc chrs).map (fun a => chrHdr.isPrefixOf a)).any id = true := by
      refine List.any_eq_true.mpr ⟨chrHdr.isPrefixOf a, ?_, hpa⟩
      exact List.mem_map.mpr ⟨a, (mem_firstOcc chrs a).mpr ha, rfl⟩
    have hall : ((firstOcc chrs).map (fun a => chrHdr.isPrefixOf a)).all id = false := by
      refine Bool.eq_false_iff.mpr ?_
      intro hc
      have hmem : chrHdr.isPrefixOf b ∈
          (firstOcc chrs).map (fun a => chrHdr.isPrefixOf a) :=
        List.mem_map.mpr ⟨b, (mem_firstOcc chrs b).mpr hb, rfl⟩
      have hid := List.all_eq_true.mp hc _ hmem
      rw [hpb] at hid
      cases hid
    simp [checkChr, hany, hall]
  · intro hnone
    have hany : ((firstOcc chrs).map (fun a => chrHdr.isPrefixOf a)).any id = false := by
      refine Bool.eq_false_iff.mpr ?_
      intro hc
      rcases List.any_eq_true.mp hc with ⟨v, hv, hvt⟩
      rcases List.mem_map.mp hv with ⟨a, ha, rfl⟩
      rw [hnone a ((mem_firstOcc chrs a).mp ha)] at hvt
      cases hvt
    simp [checkChr, hany]

theorem c8_witness :
    (checkChr false [['1']] = .error .missingChrColumn) ∧
    checkChr true [['c','h','r','1'], ['2']] = .error .mixedChrNames ∧
    checkChr true [['1'], ['2']] =
      .ok [['c','h','r','1'], ['c','h','r','2']] := by
  refine ⟨(c8_chr_checks [['1']]).1, ?_, ?_⟩
  · exact (c8_chr_checks [['c','h','r','1'], ['2']]).2.1
      ⟨['c','h','r','1'], by decide, by decide⟩
      ⟨['2'], by decide, by decide⟩
  · exact (c8_chr_checks [['1'], ['2']]).2.2 (by decide)

/-! ### C10: every chromosome chr1..chr22 must be present -/

theorem maxEndPerChr_eq_none (prs : List (PyStr × ℤ)) (c : PyStr)
    (h : c ∉ prs.map Prod.fst) : maxEndPerChr prs c = none := by
  rw [maxEndPerChr]
  have hf : prs.filter (fun p => p.1 == c) = [] := by
    rw [List.filter_eq_nil_iff]
    intro p hp
    simp only [beq_iff_eq]
    intro hc
    exact h (List.mem_map.mpr ⟨p, hp, hc⟩)
  rw [hf]
  rfl

/-- C10: the cumulative chromosome-axis offsets are built by looking up
the maximum END of each of `chr1..chr22` in order, so a table whose
(normalized) chromosome names miss any of them makes the entry point fail
(a `KeyError`) before any plot data is produced, even though the `#CHR`
checks passed. -/
theorem c10_missing_chromosome_fails (bbc : BBC) (chrs : List PyStr) (i : ℕ)
    (hok : checkChr true (bbc.rows.map (fun r => r.CHR)) = .ok chrs)
    (h1 : 1 ≤ i) (h2 : i ≤ 22) (hmiss : chrName i ∉ chrs) :
    generatePipeline true bbc = .error .chrKeyError := by
  rw [generatePipeline, hok]
  have hnone :
      chrEnds (maxEndPerChr (chrs.zip (bbc.rows.map (fun r => r.END)))) = none := by
    rw [chrEnds]
    have hmem : i - 1 ∈ List.range 22 := List.mem_range.mpr (by omega)
    have hval : maxEndPerChr (chrs.zip (bbc.rows.map (fun r => r.END)))
        (chrName ((i - 1) + 1)) = none := by
      have hi : (i - 1) + 1 = i := by omega
      rw [hi]
      refine maxEndPerChr_eq_none _ _ ?_
      intro hc
      rcases List.mem_map.mp hc with ⟨p, hp, hfst⟩
      exact hmiss (hfst ▸ List.of_mem_zip hp |>.1)
    rw [mapM_eq_none_of_mem _ (List.range 22) (i - 1) hmem hval]
    rfl
  simp [hnone]

/-- A table containing only chromosome `chr1` (after normalization). -/
def c10tbl : BBC := ⟨1, [mkRow s11 1]⟩

theorem c10_witness :
    checkChr true (c10tbl.rows.map (fun r => r.CHR)) = .ok [['c','h','r','1']] ∧
      (1 ≤ 22 ∧ 22 ≤ 22 ∧ chrName 22 ∉ [['c','h','r','1']]) ∧
      generatePipeline true c10tbl = .error .chrKeyError := by
  refine ⟨by decide, ⟨by decide, by decide, by decide⟩, ?_⟩
  exact c10_missing_chromosome_fails c10tbl [['c','h','r','1']] 22
    (by decide) (by decide) (by decide) (by decide)

/-! ### C7: per-bin and per-combination lookups share the key shape -/

theorem reindex_snd [DecidableEq K] (labels : List K) :
    (reindex labels).2 = rankPairs (mostCommon labels) 1 := rfl

theorem alookup_pipelineMapping_isSome (bbc : BBC) (k : StateKey)
    (h : k ∈ binKeys bbc) :
    (alookup k (pipelineMapping bbc)).isSome = true := by
  rw [pipelineMapping, reindex_snd]
  apply alookup_isSome_of_mem
  rw [mostCommon, mem_ssort, mem_firstOcc, groupKeys, mem_ssort, mem_firstOcc]
  exact h

/-- C7: the grouping key is the bare state string for a single tumor clone
and the tuple of state strings otherwise (`binKey`), and both the per-bin
color lookup (first conjunct, `plot_clusters` lines 630-633) and the
per-combination centroid lookup over the per-sample groupby keys (second
conjunct, line 654) hit a key that the mapping of line 84 defines: no
lookup can fail, for either arity. -/
theorem c7_lookup_success (bbc : BBC) :
    (∀ s : PyStr, ∀ r ∈ (sampleSubset bbc s).rows,
      (alookup (binKey bbc.nClones r) (pipelineMapping bbc)).isSome = true) ∧
    (∀ s : PyStr, ∀ k ∈ groupKeys (sampleSubset bbc s),
      (alookup k (pipelineMapping bbc)).isSome = true) := by
  constructor
  · intro s r hr
    have hrow : r ∈ bbc.rows := List.mem_of_mem_filter hr
    exact alookup_pipelineMapping_isSome bbc _
      (List.mem_map.mpr ⟨r, hrow, rfl⟩)
  · intro s k hk
    rw [groupKeys, mem_ssort, mem_firstOcc] at hk
    rcases List.mem_map.mp hk with ⟨r, hr, rfl⟩
    have hrow : r ∈ bbc.rows := List.mem_of_mem_filter hr
    exact alookup_pipelineMapping_isSome bbc _
      (List.mem_map.mpr ⟨r, hrow, rfl⟩)

/-- One-clone table for the C7 witness. -/
def c7tbl1 : BBC := ⟨1, [mkRow s21 1, mkRow s11 1]⟩

/-- A two-clone bin and table for the C7 witness. -/
def c7row2 : Row := ⟨['1'], 0, 100, ['A'], 1, 0, [s11, s21, s22], [0, 1, 0]⟩

def c7tbl2 : BBC := ⟨2, [c7row2]⟩

theorem c7_witness :
    (mkRow s21 1 ∈ (sampleSubset c7tbl1 ['A']).rows ∧
      (alookup (binKey c7tbl1.nClones (mkRow s21 1))
        (pipelineMapping c7tbl1)).isSome = true) ∧
    (c7row2 ∈ (sampleSubset c7tbl2 ['A']).rows ∧
      (alookup (binKey c7tbl2.nClones c7row2)
        (pipelineMapping c7tbl2)).isSome = true) :=
  ⟨⟨by decide, (c7_lookup_success c7tbl1).1 ['A'] _ (by decide)⟩,
   ⟨by decide, (c7_lookup_success c7tbl2).1 ['A'] _ (by decide)⟩⟩

/-! ### C5: `reindex` sorts by descending count with first-occurrence
tie-break and assigns consecutive ranks -/

/-- C5: for any label sequence, the `reindex` dictionary assigns the
consecutive ranks `1..N` (`N` = number of distinct labels), and for any
two labels the rank order is exactly descending occurrence count with
ties broken by first occurrence in the input.  `reindex` is a pure
function of the input sequence (`Counter` preserves insertion order and
`sorted` is stable), so repeated invocations are identical by
construction — no hash-iteration order is involved in the model. -/
theorem c5_reindex_characterization (K : Type) [DecidableEq K]
    (labels : List K) :
    ((reindex labels).2.map Prod.snd =
      List.range' 1 (firstOcc labels).length) ∧
    (∀ a b, a ∈ labels → b ∈ labels →
      ∃ ra rb, alookup a (reindex labels).2 = some ra ∧
        alookup b (reindex labels).2 = some rb ∧
        (ra < rb ↔ (cnt labels b < cnt labels a ∨
          (cnt labels a = cnt labels b ∧
            firstIdx labels a < firstIdx labels b)))) := by
  have hperm : (mostCommon labels).Perm (firstOcc labels) :=
    ssort_perm (leCnt labels) (firstOcc labels)
  have hto : ∀ a b, (leCnt labels a b || leCnt labels b a) = true := by
    intro a b
    simp only [leCnt, Bool.or_eq_true, decide_eq_true_eq]
    omega
  have htr : ∀ a b c, leCnt labels a b = true → leCnt labels b c = true →
      leCnt labels a c = true := by
    intro a b c h1 h2
    simp only [leCnt, decide_eq_true_eq] at h1 h2 ⊢
    omega
  have hst : ∀ a b, leCnt labels a b = true → leCnt labels b a = false →
      (cnt labels b < cnt labels a ∨ (cnt labels a = cnt labels b ∧
        firstIdx labels a < firstIdx labels b)) := by
    intro a b h1 h2
    simp only [leCnt, decide_eq_true_eq] at h1
    simp only [leCnt, decide_eq_false_iff_not] at h2
    omega
  have hD_tie : (firstOcc labels).Pairwise
      (fun a b => leCnt labels a b = true → leCnt labels b a = true →
        (cnt labels b < cnt labels a ∨ (cnt labels a = cnt labels b ∧
          firstIdx labels a < firstIdx labels b))) := by
    refine (pairwise_firstIdx_firstOcc labels).imp ?_
    intro a b hab h1 h2
    right
    refine ⟨?_, hab⟩
    simp only [leCnt, decide_eq_true_eq] at h1 h2
    omega
  have hRA : (mostCommon labels).Pairwise
      (fun a b => cnt labels b < cnt labels a ∨ (cnt labels a = cnt labels b ∧
        firstIdx labels a < firstIdx labels b)) :=
    pairwise_ssort_stable (leCnt labels) hto htr hst (firstOcc labels) hD_tie
  constructor
  · rw [reindex_snd, rankPairs_map_snd, hperm.length_eq]
  · intro a b ha hb
    have haD : a ∈ firstOcc labels := (mem_firstOcc labels a).mpr ha
    have hbD : b ∈ firstOcc labels := (mem_firstOcc labels b).mpr hb
    have haA : a ∈ mostCommon labels := (mem_ssort _ _ _).mpr haD
    have hbA : b ∈ mostCommon labels := (mem_ssort _ _ _).mpr hbD
    refine ⟨firstIdx (mostCommon labels) a + 1,
      firstIdx (mostCommon labels) b + 1, ?_, ?_, ?_⟩
    · rw [reindex_snd]
      exact alookup_rankPairs _ a 1 haA
    · rw [reindex_snd]
      exact alookup_rankPairs _ b 1 hbA
    · constructor
      · intro hlt
        have hidx : firstIdx (mostCommon labels) a <
            firstIdx (mostCommon labels) b := by omega
        exact List.pairwise_iff_forall_sublist.mp hRA
          (sublist_pair_of_firstIdx_lt _ a b haA hbA hidx)
      · intro hR
        have hne : a ≠ b := by
          intro hc
          subst hc
          rcases hR with h | ⟨h1, h2⟩ <;> omega
        rcases Nat.lt_trichotomy (firstIdx (mostCommon labels) a)
            (firstIdx (mostCommon labels) b) with h | h | h
        · omega
        · exact absurd (firstIdx_inj _ a b haA hbA h) hne
        · have hRba := List.pairwise_iff_forall_sublist.mp hRA
            (sublist_pair_of_firstIdx_lt _ b a hbA haA h)
          exfalso
          rcases hR with h1 | ⟨h1, h2⟩ <;> rcases hRba with h3 | ⟨h3, h4⟩ <;> omega

theorem c5_witness :
    (7 ∈ [5, 7, 5, 9]) ∧ (9 ∈ [5, 7, 5, 9]) ∧
      (∃ ra rb, alookup 7 (reindex [5, 7, 5, 9]).2 = some ra ∧
        alookup 9 (reindex [5, 7, 5, 9]).2 = some rb ∧
        (ra < rb ↔ (cnt [5, 7, 5, 9] 9 < cnt [5, 7, 5, 9] 7 ∨
          (cnt [5, 7, 5, 9] 7 = cnt [5, 7, 5, 9] 9 ∧
            firstIdx [5, 7, 5, 9] 7 < firstIdx [5, 7, 5, 9] 9)))) :=
  ⟨by decide, by decide,
    (c5_reindex_characterization ℕ [5, 7, 5, 9]).2 7 9 (by decide) (by decide)⟩

/-! ### C1: the composed pipeline ranks combinations in sorted key order -/

theorem firstOccAux_of_nodup [DecidableEq K] (l : List K) :
    ∀ (seen : List K), (∀ x ∈ l, x ∉ seen) → l.Nodup →
      firstOccAux seen l = l := by
  induction l with
  | nil => intro seen _ _; rfl
  | cons x xs ih =>
    intro seen hdisj hnd
    rcases List.nodup_cons.mp hnd with ⟨hx, hxs⟩
    rw [firstOccAux, if_neg (hdisj x (List.mem_cons_self x xs))]
    congr 1
    refine ih (x :: seen) ?_ hxs
    intro y hy hc
    rcases List.mem_cons.mp hc with rfl | hc
    · exact hx hy
    · exact hdisj y (List.mem_cons_of_mem x hy) hc

theorem firstOcc_of_nodup [DecidableEq K] (l : List K) (h : l.Nodup) :
    firstOcc l = l :=
  firstOccAux_of_nodup l [] (by simp) h

/-- The spec's end-to-end example: one tumor clone, states
`{(1,1): 2 bins, (2,1): 1 bin, (3,0): 1 bin}`. -/
def c1ex : BBC := ⟨1, [mkRow s11 1, mkRow s11 1, mkRow s21 1, mkRow s30 1]⟩

/-- C1 counterexample: in a table where state `2|1` covers two bins and
`1|1` one bin, the most frequent combination `2|1` receives rank 2 while
`1|1` receives rank 1 — the mapping of line 84 is built from the groupby
keys, of which each occurs exactly once, so prevalence never enters. -/
def c1tbl : BBC := ⟨1, [mkRow s21 1, mkRow s21 1, mkRow s11 1]⟩

theorem c1_counterexample :
    cnt (binKeys c1tbl) (StateKey.single s21) = 2 ∧
      cnt (binKeys c1tbl) (StateKey.single s11) = 1 ∧
      alookup (StateKey.single s21) (pipelineMapping c1tbl) = some 2 ∧
      alookup (StateKey.single s11) (pipelineMapping c1tbl) = some 1 := by
  refine ⟨by decide, by decide, by decide, by decide⟩

/-- C1 (amended): the mapping built by the composed pipeline receives each
distinct combination exactly once (the groupby keys, in ascending sorted
key order), so ranks follow ascending key order and are independent of how
many bins carry each combination; in the spec's example, `1|1` still
receives rank 1, but only because it sorts first. -/
theorem c1_rank_by_sorted_key_order :
    (∀ (bbc : BBC) (a b : StateKey), a ∈ groupKeys bbc → b ∈ groupKeys bbc →
      keyLE a b = true → a ≠ b →
      ∃ ra rb, alookup a (pipelineMapping bbc) = some ra ∧
        alookup b (pipelineMapping bbc) = some rb ∧ ra < rb) ∧
    alookup (StateKey.single s11) (pipelineMapping c1ex) = some 1 := by
  constructor
  · intro bbc a b ha hb hle hne
    have hSnodup : (groupKeys bbc).Nodup :=
      ((ssort_perm keyLE (firstOcc (binKeys bbc))).nodup_iff).mpr
        (nodup_firstOcc (binKeys bbc))
    have hSsorted : (groupKeys bbc).Pairwise (fun a b => keyLE a b = true) :=
      ssort_pairwise_le keyLE keyLE_total keyLE_trans (firstOcc (binKeys bbc))
    have hmc : mostCommon (groupKeys bbc) = groupKeys bbc := by
      rw [mostCommon, firstOcc_of_nodup _ hSnodup]
      apply ssort_of_pairwise
      refine List.pairwise_iff_forall_sublist.mpr ?_
      intro x y hsub
      have hx : x ∈ groupKeys bbc := hsub.subset (by simp)
      have hy : y ∈ groupKeys bbc := hsub.subset (by simp)
      simp [leCnt, cnt_eq_one_of_nodup _ x hSnodup hx,
        cnt_eq_one_of_nodup _ y hSnodup hy]
    have hidx : firstIdx (groupKeys bbc) a < firstIdx (groupKeys bbc) b := by
      rcases Nat.lt_trichotomy (firstIdx (groupKeys bbc) a)
          (firstIdx (groupKeys bbc) b) with h | h | h
      · exact h
      · exact absurd (firstIdx_inj _ a b ha hb h) hne
      · exfalso
        have hba := List.pairwise_iff_forall_sublist.mp hSsorted
          (sublist_pair_of_firstIdx_lt _ b a hb ha h)
        exact hne (keyLE_antisymm a b hle hba)
    refine ⟨firstIdx (groupKeys bbc) a + 1, firstIdx (groupKeys bbc) b + 1,
      ?_, ?_, by omega⟩
    · rw [pipelineMapping, reindex_snd, hmc]
      exact alookup_rankPairs _ a 1 ha
    · rw [pipelineMapping, reindex_snd, hmc]
      exact alookup_rankPairs _ b 1 hb
  · decide

theorem c1_witness :
    (StateKey.single s11 ∈ groupKeys c1ex) ∧
      (StateKey.single s21 ∈ groupKeys c1ex) ∧
      keyLE (StateKey.single s11) (StateKey.single s21) = true ∧
      StateKey.single s11 ≠ StateKey.single s21 ∧
      (∃ ra rb,
        alookup (StateKey.single s11) (pipelineMapping c1ex) = some ra ∧
        alookup (StateKey.single s21) (pipelineMapping c1ex) = some rb ∧
        ra < rb) :=
  ⟨by decide, by decide, by decide, by decide,
    c1_rank_by_sorted_key_order.1 c1ex _ _ (by decide) (by decide)
      (by decide) (by decide)⟩

/-! ### C2: gamma on a uniformly balanced table -/

theorem firstIdx_lt_length [DecidableEq K] (l : List K) (k : K) (h : k ∈ l) :
    firstIdx l k < l.length := by
  induction l with
  | nil => cases h
  | cons x xs ih =>
    rw [firstIdx_cons]
    by_cases hx : x = k
    · simp [hx]
    · have hm : k ∈ xs := by
        rcases List.mem_cons.mp h with rfl | hm
        · exact absurd rfl hx
        · exact hm
      have := ih hm
      rw [if_neg hx]
      simpa using this

theorem argmaxIdx_lt_length (l : List ℚ) (h : l ≠ []) :
    argmaxIdx l < l.length := by
  rw [argmaxIdx]
  cases hm : l.max? with
  | none => exact absurd (List.max?_eq_none_iff.mp hm) h
  | some m => exact firstIdx_lt_length l m (List.max?_mem max_choice hm)

theorem sum_getD_range (l : List ℚ) :
    ((List.range l.length).map (fun i => l.getD i 0)).sum = l.sum := by
  induction l with
  | nil => rfl
  | cons x xs ih =>
    rw [List.length_cons, List.range_succ_eq_map, List.map_cons,
      List.getD_cons_zero, List.map_map]
    have hc : ((fun i => (x :: xs).getD i 0) ∘ Nat.succ) =
        (fun i => xs.getD i 0) := by
      funext i
      simp [List.getD_cons_succ]
    rw [hc, List.sum_cons, ih, List.sum_cons]

/-- C2 counterexample: a two-bin all-`2|2` table with `RD = 1` and
`RD = 2` gives gamma `= mean(4/RD) = 3`, while `4 / mean(RD) = 8/3`: the
estimator averages per-bin ratios, it does not divide by the mean RD. -/
def c2tbl : BBC :=
  ⟨1, [⟨['1'], 0, 100, ['A'], 1, 0, [s22, s22], [0, 1]⟩,
       ⟨['1'], 0, 100, ['A'], 2, 0, [s22, s22], [0, 1]⟩]⟩

theorem c2_counterexample :
    computeGamma c2tbl = (1, some 3) ∧
      meanQ (c2tbl.rows.map (fun r => r.RD)) = some (3/2) ∧
      (4 : ℚ) / (3/2) ≠ 3 := by
  refine ⟨?_, ?_, by norm_num⟩
  · have h1 : balancedRows c2tbl (firstCandidate c2tbl) = c2tbl.rows := by
      decide
    have h4 : (cn2total ['2','|','2']).getD 0 = 4 := by decide
    rw [computeGamma, h1]
    have h2 : (c2tbl.rows.isEmpty) = false := by decide
    rw [h2]
    simp only [if_false, Bool.false_eq_true]
    norm_num [c2tbl, gammaMean, meanQ, fcnRow, h4, List.range_succ, s22, s11,
      cn2totalD]
  · norm_num [meanQ, c2tbl]

/-- C2 (amended): on a table where every clone of every bin (the normal
slot included) carries state `2|2`, `RD > 0` everywhere and the mixing
proportions of each row sum to 1, gamma is the *mean over bins of*
`4 / RD` — which coincides with `4 / mean(RD)` only when RD is constant;
in general gamma is the mean over the selected balanced bins of
`fcn / RD`, which is what `computeGamma` computes. -/
theorem c2_amended_gamma_mean (bbc : BBC)
    (hn : 0 < bbc.nClones)
    (hne : bbc.rows ≠ [])
    (hcns : ∀ r ∈ bbc.rows, r.cns = List.replicate (bbc.nClones + 1) s22)
    (hus : ∀ r ∈ bbc.rows, r.us.length = bbc.nClones + 1 ∧ r.us.sum = 1)
    (hrd : ∀ r ∈ bbc.rows, 0 < r.RD) :
    computeGamma bbc = (bbc.nClones,
      some ((bbc.rows.map (fun r => 4 / r.RD)).sum / (bbc.rows.length : ℚ))) := by
  have hs22 : ((cn2totalD s22 : ℤ) : ℚ) = 4 := by decide
  have hgetrep : ∀ i, i < bbc.nClones + 1 →
      (List.replicate (bbc.nClones + 1) s22).getD i [] = s22 := by
    intro i hi
    rw [List.getD_eq_getElem?_getD, List.getElem?_replicate, if_pos hi]
    rfl
  -- Step A: each row's fractional copy number is 4
  have hfcn : ∀ r ∈ bbc.rows, fcnRow bbc.nClones r = 4 := by
    intro r hr
    rw [fcnRow]
    have hmapeq : (List.range (bbc.nClones + 1)).map
        (fun i => ((cn2totalD (r.cns.getD i [])) : ℚ) * r.us.getD i 0) =
        (List.range (bbc.nClones + 1)).map
        (fun i => (4 : ℚ) * r.us.getD i 0) := by
      refine List.map_congr_left ?_
      intro i hi
      rw [hcns r hr, hgetrep i (List.mem_range.mp hi)]
      rw [show ((cn2totalD s22 : ℤ) : ℚ) = 4 from hs22]
    rw [hmapeq, List.sum_map_mul_left]
    rw [show bbc.nClones + 1 = r.us.length from (hus r hr).1.symm]
    rw [sum_getD_range, (hus r hr).2, mul_one]
  -- Step B: the dominant clone's column is all 2|2, so 2|2 wins the count
  have hlc : largestClone bbc < bbc.nClones := by
    have hnonnil : ((List.range bbc.nClones).map
        (fun i => (bbc.rows.headD defaultRow).us.getD (i + 1) 0)) ≠ [] := by
      simp only [ne_eq, List.map_eq_nil_iff, List.range_eq_nil]
      omega
    have h := argmaxIdx_lt_length _ hnonnil
    simpa [largestClone] using h
  have hdom : dominantCol bbc = bbc.rows.map (fun _ => s22) := by
    rw [dominantCol]
    refine List.map_congr_left ?_
    intro r hr
    rw [hcns r hr]
    exact hgetrep _ (by omega)
  have hdomcnt : cnt (dominantCol bbc) s22 = bbc.rows.length := by
    rw [hdom, cnt, List.countP_map]
    rw [List.countP_eq_length.mpr]
    intro a _
    simp
  have hzero : ∀ t : PyStr, t ≠ s22 → cnt (dominantCol bbc) t = 0 := by
    intro t ht
    refine cnt_eq_zero_of_not_mem _ _ ?_
    rw [hdom]
    intro hc
    rcases List.mem_map.mp hc with ⟨r, _, hrt⟩
    exact ht hrt.symm
  have hpos : 0 < bbc.rows.length := by
    cases hrows : bbc.rows with
    | nil => exact absurd hrows hne
    | cons r rs => simp
  have hcand : firstCandidate bbc = s22 := by
    have h11 : cnt (dominantCol bbc) (['1','|','1'] : PyStr) = 0 :=
      hzero _ (by decide)
    have h22 : cnt (dominantCol bbc) (['2','|','2'] : PyStr) =
        bbc.rows.length := hdomcnt
    have h33 : cnt (dominantCol bbc) (['3','|','3'] : PyStr) = 0 :=
      hzero _ (by decide)
    have h44 : cnt (dominantCol bbc) (['4','|','4'] : PyStr) = 0 :=
      hzero _ (by decide)
    rw [firstCandidate, maxByCount, balancedOptions]
    simp only [List.foldl_cons, List.foldl_nil, List.headD_cons]
    simp [h11, h22, h33, h44, hpos, s22]
  -- Step C: every row is selected
  have hsel : balancedRows bbc s22 = bbc.rows := by
    rw [balancedRows]
    refine List.filter_eq_self.mpr ?_
    intro r hr
    rw [Bool.and_eq_true_iff]
    constructor
    · rw [List.all_eq_true]
      intro j hj
      rw [hcns r hr, hgetrep (j + 1) (by
        have := List.mem_range.mp hj
        omega)]
      simp
    · simpa using hrd r hr
  -- Step D: assemble
  have hempty : bbc.rows.isEmpty = false := by
    cases hrows : bbc.rows with
    | nil => exact absurd hrows hne
    | cons r rs => rfl
  rw [computeGamma, hcand, hsel, hempty]
  simp only [if_false, Bool.false_eq_true]
  rw [gammaMean, meanQ]
  have hmap2 : bbc.rows.map (fun r => fcnRow bbc.nClones r / r.RD) =
      bbc.rows.map (fun r => 4 / r.RD) := by
    refine List.map_congr_left ?_
    intro r hr
    rw [hfcn r hr]
  rw [hmap2]
  have hempty2 : (bbc.rows.map (fun r => (4 : ℚ) / r.RD)).isEmpty = false := by
    cases hrows : bbc.rows with
    | nil => exact absurd hrows hne
    | cons r rs => rfl
  rw [hempty2]
  simp only [if_false, Bool.false_eq_true, List.length_map]

/-- A concrete instance with nonconstant RD for the C2 witness. -/
theorem c2_witness :
    (0 < c2tbl.nClones ∧ c2tbl.rows ≠ [] ∧
      (∀ r ∈ c2tbl.rows, r.cns = List.replicate (c2tbl.nClones + 1) s22) ∧
      (∀ r ∈ c2tbl.rows, r.us.length = c2tbl.nClones + 1 ∧ r.us.sum = 1) ∧
      (∀ r ∈ c2tbl.rows, 0 < r.RD)) ∧
    computeGamma c2tbl = (c2tbl.nClones,
      some ((c2tbl.rows.map (fun r => 4 / r.RD)).sum /
        (c2tbl.rows.length : ℚ))) := by
  refine ⟨⟨by decide, by decide, by decide, ?_, by decide⟩, ?_⟩
  · intro r hr
    refine ⟨?_, ?_⟩
    · fin_cases hr <;> decide
    · fin_cases hr <;> simp [c2tbl]
  · refine c2_amended_gamma_mean c2tbl (by decide) (by decide) (by decide)
      ?_ (by decide)
    intro r hr
    refine ⟨?_, ?_⟩
    · fin_cases hr <;> decide
    · fin_cases hr <;> simp [c2tbl]

/-! ### C3: the candidate-removal loop retries exactly once -/

theorem gammaMean_eq_none_iff (n : ℕ) (sel : List Row) :
    gammaMean n sel = none ↔ sel = [] := by
  rw [gammaMean, meanQ]
  rcases sel with _ | ⟨r, rs⟩
  · simp
  · simp

/-- C3 counterexample: the dominant-count candidate `1|1` and the retry
candidate `2|2` both select no bins (all their bins have `RD = 0`), while
`3|3` has a usable bin; the claim requires selection to continue to `3|3`
(or, if all were exhausted, a fatal error) — instead `compute_gamma` stops
after one retry and returns the mean of an empty selection (`NaN`,
modeled `none`), raising nothing. -/
def c3tbl : BBC :=
  ⟨1, [mkRow s11 0, mkRow s11 0, mkRow s11 0,
       mkRow s22 0, mkRow s22 0, mkRow s33 1]⟩

theorem c3_counterexample :
    (computeGamma c3tbl).2 = none ∧
      balancedRows c3tbl s33 = [mkRow s33 1] ∧
      firstCandidate c3tbl = s11 ∧ secondCandidate c3tbl = s22 := by
  refine ⟨by decide, by decide, by decide, by decide⟩

/-- C3 (amended): the estimator removes the failed best candidate and
retries exactly once with the best remaining one; the gamma result is the
`NaN` of an empty `np.mean` (modeled `none`) precisely when both the first
and the second candidate select no usable bin — no further candidates are
examined and no error is signaled. -/
theorem c3_amended_single_retry (bbc : BBC) :
    (computeGamma bbc).2 = none ↔
      (balancedRows bbc (firstCandidate bbc) = [] ∧
        balancedRows bbc (secondCandidate bbc) = []) := by
  rw [computeGamma]
  by_cases h : (balancedRows bbc (firstCandidate bbc)).isEmpty = true
  · rw [if_pos h]
    have h1 := List.isEmpty_iff.mp h
    simp [h1, gammaMean_eq_none_iff]
  · rw [if_neg h]
    have h1 : balancedRows bbc (firstCandidate bbc) ≠ [] := by
      intro hc
      rw [hc] at h
      exact h rfl
    simp [gammaMean_eq_none_iff, h1]
